import Mathlib

/-!
Shallow embedding of the cmhash repository (src/lib.rs and src/hasher.rs),
specialised to the 64-bit word width. Machine words are `Nat` values with
overflow made explicit by `% 2 ^ 64`; byte slices are `List Nat` with each
entry below 256, read in little-endian (native) byte order.
-/

/-- Word size of the modelled 64-bit target: every machine word is below `WSIZE`. -/
def WSIZE : Nat := 2 ^ 64

/-- Constant `MERSENNE_PRIME` from src/lib.rs (64-bit branch): `(2 << 61) - 1`. -/
def MERSENNE_PRIME : Nat := (2 <<< 61) - 1

/-- Rust `usize::widening_mul` / `u64::widening_mul`: the double-width product,
returned as (low half, high half). -/
def wideningMul (a b : Nat) : Nat × Nat := (a * b % WSIZE, a * b / WSIZE)

/-- Constant `DEFAULT_HASHER_STATE` from src/hasher.rs. -/
def DEFAULT_HASHER_STATE : Nat := 0xAAAAAAAAAAAAAAAA

/-- `TLCoreHasher` from src/lib.rs: a cell holding one word of state. -/
structure TLCoreHasher where
  state : Nat
deriving DecidableEq

/-- `TLCoreHasher::new`: state starts at 0. -/
def TLCoreHasher.new : TLCoreHasher := ⟨0⟩

/-- `TLCoreHasher::with_state`. -/
def TLCoreHasher.withState (s : Nat) : TLCoreHasher := ⟨s⟩

/-- `TLCoreHasher::get_state`. -/
def TLCoreHasher.getState (h : TLCoreHasher) : Nat := h.state

/-- `TLCoreHasher::fast_hash`: xor the value with the state, widening-multiply by
`MERSENNE_PRIME`, return the low half and store the high half as the new state. -/
def TLCoreHasher.fastHash (h : TLCoreHasher) (val : Nat) : Nat × TLCoreHasher :=
  let input := val ^^^ h.state
  let r := wideningMul input MERSENNE_PRIME
  (r.1, ⟨r.2⟩)

/-- `CoreHasher` from src/lib.rs: atomic variant; a single call is modelled
sequentially (load, mix, store). -/
structure CoreHasher where
  state : Nat
deriving DecidableEq

/-- `CoreHasher::new`: state starts at 0. -/
def CoreHasher.new : CoreHasher := ⟨0⟩

/-- `CoreHasher::with_state`. -/
def CoreHasher.withState (s : Nat) : CoreHasher := ⟨s⟩

/-- `CoreHasher::get_state`. -/
def CoreHasher.getState (h : CoreHasher) : Nat := h.state

/-- `CoreHasher::fast_hash`: same mixing step as `TLCoreHasher.fastHash`. -/
def CoreHasher.fastHash (h : CoreHasher) (val : Nat) : Nat × CoreHasher :=
  let input := val ^^^ h.state
  let r := wideningMul input MERSENNE_PRIME
  (r.1, ⟨r.2⟩)

/-- `stateless_fast_hash` from src/lib.rs: widening-multiply the value by
`MERSENNE_PRIME` and xor the two halves. -/
def statelessFastHash (val : Nat) : Nat :=
  let r := wideningMul val MERSENNE_PRIME
  r.1 ^^^ r.2

/-- `CMHasher` from src/hasher.rs: a mixing state and a digest register. -/
structure CMHasher where
  state : Nat
  data : Nat
deriving DecidableEq

/-- `CMHasher::new`: delegates to `with_state(DEFAULT_HASHER_STATE)`. -/
def CMHasher.new : CMHasher := ⟨DEFAULT_HASHER_STATE, 0⟩

/-- `CMHasher::with_state`. -/
def CMHasher.withState (s : Nat) : CMHasher := ⟨s, 0⟩

/-- `CMHasher::hash` (private): the same mixing step, with the literal
`(2 << 61) - 1` equal to `MERSENNE_PRIME`. -/
def CMHasher.hash (h : CMHasher) (val : Nat) : Nat × CMHasher :=
  let input := val ^^^ h.state
  let r := wideningMul input MERSENNE_PRIME
  (r.1, { h with state := r.2 })

/-- `CMHasher::finish`: `self.data.replace(0)`. -/
def CMHasher.finish (h : CMHasher) : Nat × CMHasher :=
  (h.data, { h with data := 0 })

/-- `bytes.array_chunks::<8>()`: the consecutive full 8-byte chunks. -/
def fullChunks : List Nat → List (List Nat)
  | b0 :: b1 :: b2 :: b3 :: b4 :: b5 :: b6 :: b7 :: rest =>
      [b0, b1, b2, b3, b4, b5, b6, b7] :: fullChunks rest
  | _ => []

/-- `chunks.remainder()`: the trailing bytes after the full 8-byte chunks. -/
def remBytes : List Nat → List Nat
  | _ :: _ :: _ :: _ :: _ :: _ :: _ :: _ :: rest => remBytes rest
  | l => l

/-- `u64::from_ne_bytes` on a little-endian target: bytes in increasing
significance. -/
def wordOfBytes (bs : List Nat) : Nat :=
  bs.foldr (fun b acc => b + 256 * acc) 0

/-- The `rem` word of `write`: the remainder bytes zero-padded on the high end
to a full 8-byte word. -/
def padWord (bs : List Nat) : Nat :=
  wordOfBytes (bs ++ List.replicate (8 - bs.length) 0)

/-- The sequence of words a `write(bytes)` call feeds to the hasher, in order:
every full chunk, then always the zero-padded remainder word
(`.chain(core::iter::once(rem))`). -/
def writeWords (bytes : List Nat) : List Nat :=
  (fullChunks bytes).map wordOfBytes ++ [padWord (remBytes bytes)]

/-- The fold inside `CMHasher::write`: `fold(init, |val, next| val ^ self.hash(next))`,
threading the mixing state that `hash` mutates. Returns (accumulator, final state). -/
def hashFold (st acc : Nat) : List Nat → Nat × Nat
  | [] => (acc, st)
  | w :: ws =>
      let r := wideningMul (w ^^^ st) MERSENNE_PRIME
      hashFold r.2 (acc ^^^ r.1) ws

/-- `CMHasher::write` from src/hasher.rs: fold the write words through `hash`
with the pre-write state as the initial accumulator, store the result in `data`. -/
def CMHasher.write (h : CMHasher) (bytes : List Nat) : CMHasher :=
  let r := hashFold h.state h.state (writeWords bytes)
  { state := r.2, data := r.1 }

/-- `CMHasher::write_u64`: `self.data.set(self.hash(i))`. -/
def CMHasher.writeU64 (h : CMHasher) (i : Nat) : CMHasher :=
  let r := h.hash i
  { state := r.2.state, data := r.1 }

/-- `StatelessHasher` from src/hasher.rs: only a digest register. -/
structure StatelessHasher where
  data : Nat
deriving DecidableEq

/-- `StatelessHasher::new`. -/
def StatelessHasher.new : StatelessHasher := ⟨0⟩

/-- `StatelessHasher::hash` (private): widening multiply by the literal
`(2 << 61) - 1` and xor the halves; no state is read or written. -/
def StatelessHasher.hash (val : Nat) : Nat :=
  let r := wideningMul val MERSENNE_PRIME
  r.1 ^^^ r.2

/-- `StatelessHasher::write`: fold the write words with initial accumulator 0. -/
def StatelessHasher.write (_h : StatelessHasher) (bytes : List Nat) : StatelessHasher :=
  ⟨(writeWords bytes).foldl (fun val next => val ^^^ StatelessHasher.hash next) 0⟩

/-- `StatelessHasher::write_u64`. -/
def StatelessHasher.writeU64 (_h : StatelessHasher) (i : Nat) : StatelessHasher :=
  ⟨StatelessHasher.hash i⟩

/-- `StatelessHasher::finish`: `self.data.replace(0)`. -/
def StatelessHasher.finish (h : StatelessHasher) : Nat × StatelessHasher :=
  (h.data, ⟨0⟩)

/-- Follows the spec wording of claim C4: a stateless hash that would xor the
default alternating-bit state into the value before the widening multiply. -/
def specStatelessHash (val : Nat) : Nat :=
  let r := wideningMul (val ^^^ DEFAULT_HASHER_STATE) MERSENNE_PRIME
  r.1 ^^^ r.2

/-- Follows the spec wording of claim C6: the words `write` would hash if the
zero-padded tail word were produced only when the byte length is not an exact
multiple of the 8-byte word width. -/
def specWriteWords (bytes : List Nat) : List Nat :=
  (fullChunks bytes).map wordOfBytes ++
    (if bytes.length % 8 = 0 then [] else [padWord (remBytes bytes)])

/-- Word size is positive. -/
theorem wsize_pos : 0 < WSIZE := by decide

/-- The mixing constant fits in one word. -/
theorem mersenne_lt_wsize : MERSENNE_PRIME < WSIZE := by decide

/-- Xor of two words is a word. -/
theorem xor_lt_wsize {a b : Nat} (ha : a < WSIZE) (hb : b < WSIZE) : a ^^^ b < WSIZE :=
  Nat.xor_lt_two_pow ha hb

/-- The high half of a widening multiply by the mixing constant is a word. -/
theorem mulC_div_lt {a : Nat} (ha : a < WSIZE) : a * MERSENNE_PRIME / WSIZE < WSIZE := by
  apply Nat.div_lt_of_lt_mul
  calc a * MERSENNE_PRIME ≤ a * WSIZE := Nat.mul_le_mul_left a (Nat.le_of_lt mersenne_lt_wsize)
    _ < WSIZE * WSIZE := (Nat.mul_lt_mul_right wsize_pos).mpr ha

/-- Multiplication by the odd mixing constant is injective modulo the word size. -/
theorem mulC_mod_inj {a b : Nat} (ha : a < WSIZE) (hb : b < WSIZE)
    (h : a * MERSENNE_PRIME % WSIZE = b * MERSENNE_PRIME % WSIZE) : a = b := by
  have hodd : MERSENNE_PRIME % 2 = 1 := by decide
  have hndvd : ¬ 2 ∣ MERSENNE_PRIME := by omega
  have hcop2 : Nat.Coprime 2 MERSENNE_PRIME :=
    (Nat.Prime.coprime_iff_not_dvd Nat.prime_two).mpr hndvd
  have hcop : Nat.gcd WSIZE MERSENNE_PRIME = 1 := hcop2.pow_left 64
  have hmod : a % WSIZE = b % WSIZE := Nat.ModEq.cancel_right_of_coprime hcop h
  rwa [Nat.mod_eq_of_lt ha, Nat.mod_eq_of_lt hb] at hmod

/-- The fold inside `write` splits as the initial accumulator xored with the
pure xor-of-hashes, and its final state does not depend on the accumulator. -/
theorem hashFold_acc (ws : List Nat) : ∀ st acc,
    hashFold st acc ws = (acc ^^^ (hashFold st 0 ws).1, (hashFold st 0 ws).2) := by
  induction ws with
  | nil => intro st acc; simp [hashFold]
  | cons w ws ih =>
      intro st acc
      simp only [hashFold]
      rw [ih, ih ((wideningMul (w ^^^ st) MERSENNE_PRIME).2) ((0 : Nat) ^^^ _)]
      simp [Nat.xor_assoc]

/-- Number of full chunks is the byte length divided by 8. -/
theorem fullChunks_length : ∀ l : List Nat, (fullChunks l).length = l.length / 8
  | [] => by simp [fullChunks]
  | [_] => by simp [fullChunks]
  | [_, _] => by simp [fullChunks]
  | [_, _, _] => by simp [fullChunks]
  | [_, _, _, _] => by simp [fullChunks]
  | [_, _, _, _, _] => by simp [fullChunks]
  | [_, _, _, _, _, _] => by simp [fullChunks]
  | [_, _, _, _, _, _, _] => by simp [fullChunks]
  | _ :: _ :: _ :: _ :: _ :: _ :: _ :: _ :: rest => by
      have ih := fullChunks_length rest
      simp only [fullChunks, List.length_cons, ih]
      omega

/-- Length of the remainder is the byte length modulo 8. -/
theorem remBytes_length : ∀ l : List Nat, (remBytes l).length = l.length % 8
  | [] => by simp [remBytes]
  | [_] => by simp [remBytes]
  | [_, _] => by simp [remBytes]
  | [_, _, _] => by simp [remBytes]
  | [_, _, _, _] => by simp [remBytes]
  | [_, _, _, _, _] => by simp [remBytes]
  | [_, _, _, _, _, _] => by simp [remBytes]
  | [_, _, _, _, _, _, _] => by simp [remBytes]
  | _ :: _ :: _ :: _ :: _ :: _ :: _ :: _ :: rest => by
      have ih := remBytes_length rest
      simp only [remBytes, List.length_cons, ih]
      omega

/-- A buffer shorter than one word is its own remainder. -/
theorem remBytes_short : ∀ l : List Nat, l.length < 8 → remBytes l = l
  | [], _ => rfl
  | [_], _ => rfl
  | [_, _], _ => rfl
  | [_, _, _], _ => rfl
  | [_, _, _, _], _ => rfl
  | [_, _, _, _, _], _ => rfl
  | [_, _, _, _, _, _], _ => rfl
  | [_, _, _, _, _, _, _], _ => rfl
  | _ :: _ :: _ :: _ :: _ :: _ :: _ :: _ :: rest, h => by
      simp only [List.length_cons] at h
      omega

/-- A buffer shorter than one word has no full chunks. -/
theorem fullChunks_short : ∀ l : List Nat, l.length < 8 → fullChunks l = []
  | [], _ => rfl
  | [_], _ => rfl
  | [_, _], _ => rfl
  | [_, _, _], _ => rfl
  | [_, _, _, _], _ => rfl
  | [_, _, _, _, _], _ => rfl
  | [_, _, _, _, _, _], _ => rfl
  | [_, _, _, _, _, _, _], _ => rfl
  | _ :: _ :: _ :: _ :: _ :: _ :: _ :: _ :: rest, h => by
      simp only [List.length_cons] at h
      omega

/-- Remainder bytes come from the buffer. -/
theorem mem_remBytes : ∀ l : List Nat, ∀ b ∈ remBytes l, b ∈ l
  | [], _, hb => hb
  | [_], _, hb => hb
  | [_, _], _, hb => hb
  | [_, _, _], _, hb => hb
  | [_, _, _, _], _, hb => hb
  | [_, _, _, _, _], _, hb => hb
  | [_, _, _, _, _, _], _, hb => hb
  | [_, _, _, _, _, _, _], _, hb => hb
  | _ :: _ :: _ :: _ :: _ :: _ :: _ :: _ :: rest, x, hx => by
      have := mem_remBytes rest x hx
      simp only [List.mem_cons]
      tauto

/-- Every full chunk has 8 bytes, all drawn from the buffer. -/
theorem mem_fullChunks : ∀ l : List Nat, ∀ c ∈ fullChunks l, c.length = 8 ∧ ∀ b ∈ c, b ∈ l
  | [], _, hc => nomatch hc
  | [_], _, hc => nomatch hc
  | [_, _], _, hc => nomatch hc
  | [_, _, _], _, hc => nomatch hc
  | [_, _, _, _], _, hc => nomatch hc
  | [_, _, _, _, _], _, hc => nomatch hc
  | [_, _, _, _, _, _], _, hc => nomatch hc
  | [_, _, _, _, _, _, _], _, hc => nomatch hc
  | a :: b :: c :: d :: e :: f :: g :: h :: rest, ch, hc => by
      simp only [fullChunks, List.mem_cons] at hc
      rcases hc with rfl | hc
      · refine ⟨rfl, ?_⟩
        intro x hx
        simp only [List.mem_cons] at hx ⊢
        tauto
      · obtain ⟨hlen, hmem⟩ := mem_fullChunks rest ch hc
        refine ⟨hlen, ?_⟩
        intro x hx
        have := hmem x hx
        simp only [List.mem_cons]
        tauto

/-- A little-endian byte list denotes a value below 256 to its length. -/
theorem wordOfBytes_lt : ∀ bs : List Nat, (∀ b ∈ bs, b < 256) →
    wordOfBytes bs < 256 ^ bs.length := by
  intro bs
  induction bs with
  | nil => intro; simp [wordOfBytes]
  | cons b bs ih =>
      intro hb
      have hbb : b < 256 := hb b (by simp)
      have ht : wordOfBytes bs < 256 ^ bs.length := ih (fun x hx => hb x (by simp [hx]))
      simp only [wordOfBytes, List.foldr_cons, List.length_cons] at *
      rw [pow_succ, Nat.mul_comm]
      omega

/-- The word size is eight bytes wide. -/
theorem wsize_eq_pow : WSIZE = 256 ^ 8 := by decide

/-- The padded remainder word is a machine word. -/
theorem padWord_lt (bs : List Nat) (hlen : bs.length ≤ 8) (hb : ∀ b ∈ bs, b < 256) :
    padWord bs < WSIZE := by
  have hall : ∀ b ∈ bs ++ List.replicate (8 - bs.length) 0, b < 256 := by
    intro x hx
    rcases List.mem_append.mp hx with h | h
    · exact hb x h
    · have := List.eq_of_mem_replicate h
      omega
  have hlt := wordOfBytes_lt _ hall
  have hlen2 : (bs ++ List.replicate (8 - bs.length) 0).length = 8 := by
    simp only [List.length_append, List.length_replicate]
    omega
  rw [hlen2] at hlt
  rw [wsize_eq_pow]
  exact hlt

/-- Every word `write` feeds to the hasher is a machine word. -/
theorem writeWords_lt (bytes : List Nat) (hb : ∀ b ∈ bytes, b < 256) :
    ∀ w ∈ writeWords bytes, w < WSIZE := by
  intro w hw
  simp only [writeWords, List.mem_append, List.mem_map, List.mem_singleton] at hw
  rcases hw with ⟨c, hc, rfl⟩ | rfl
  · obtain ⟨hlen, hmem⟩ := mem_fullChunks bytes c hc
    have hlt := wordOfBytes_lt c (fun x hx => hb x (hmem x hx))
    rw [hlen] at hlt
    rw [wsize_eq_pow]
    exact hlt
  · apply padWord_lt
    · have := remBytes_length bytes
      omega
    · intro x hx
      exact hb x (mem_remBytes bytes x hx)

/-- The stateless hash of a machine word is a machine word. -/
theorem statelessHash_lt {w : Nat} (hw : w < WSIZE) : StatelessHasher.hash w < WSIZE :=
  xor_lt_wsize (Nat.mod_lt _ wsize_pos) (mulC_div_lt hw)

/-- The stateless fold stays within machine words. -/
theorem xorFoldl_lt : ∀ (ws : List Nat) (acc : Nat), acc < WSIZE →
    (∀ w ∈ ws, w < WSIZE) →
    ws.foldl (fun val next => val ^^^ StatelessHasher.hash next) acc < WSIZE := by
  intro ws
  induction ws with
  | nil => intro acc h _; simpa using h
  | cons w ws ih =>
      intro acc hacc hw
      simp only [List.foldl_cons]
      exact ih _ (xor_lt_wsize hacc (statelessHash_lt (hw w (by simp))))
        (fun x hx => hw x (by simp [hx]))

/-- The stateful fold stays within machine words, in both components. -/
theorem hashFold_lt : ∀ (ws : List Nat) (st acc : Nat), st < WSIZE → acc < WSIZE →
    (∀ w ∈ ws, w < WSIZE) →
    (hashFold st acc ws).1 < WSIZE ∧ (hashFold st acc ws).2 < WSIZE := by
  intro ws
  induction ws with
  | nil => intro st acc hst hacc _; exact ⟨hacc, hst⟩
  | cons w ws ih =>
      intro st acc hst hacc hw
      have hinput : w ^^^ st < WSIZE := xor_lt_wsize (hw w (by simp)) hst
      have hlow : (w ^^^ st) * MERSENNE_PRIME % WSIZE < WSIZE := Nat.mod_lt _ wsize_pos
      have hhigh := mulC_div_lt hinput
      simp only [hashFold, wideningMul]
      exact ih _ _ hhigh (xor_lt_wsize hacc hlow) (fun x hx => hw x (by simp [hx]))

/-- Claim C1: a single `fast_hash`/`hash` call on state `s` with value `v`
computes `input = v XOR s`, takes the widening product `input * C`, returns the
low half as the hash and stores the high half as the new state — for
`TLCoreHasher`, `CoreHasher` and `CMHasher` alike. -/
theorem hash_word_mixes (s v d : Nat) :
    TLCoreHasher.fastHash ⟨s⟩ v =
      ((v ^^^ s) * MERSENNE_PRIME % WSIZE, ⟨(v ^^^ s) * MERSENNE_PRIME / WSIZE⟩) ∧
    CoreHasher.fastHash ⟨s⟩ v =
      ((v ^^^ s) * MERSENNE_PRIME % WSIZE, ⟨(v ^^^ s) * MERSENNE_PRIME / WSIZE⟩) ∧
    CMHasher.hash ⟨s, d⟩ v =
      ((v ^^^ s) * MERSENNE_PRIME % WSIZE, ⟨(v ^^^ s) * MERSENNE_PRIME / WSIZE, d⟩) :=
  ⟨rfl, rfl, rfl⟩

/-- Claim C2 counterexample: on a default-constructed `TLCoreHasher` (state 0)
with value 0, two consecutive `fast_hash(0)` calls both return 0, so the
universal non-idempotence claim is false. -/
theorem repeated_zero_hash_repeats :
    (TLCoreHasher.new.fastHash 0).1 = ((TLCoreHasher.new.fastHash 0).2.fastHash 0).1 ∧
    (TLCoreHasher.new.fastHash 0).1 = 0 := by decide

/-- Claim C2 (amended): two consecutive `fast_hash(v)` calls on the same
instance return different results exactly when the first call changes the
stored state; with state 0 and small inputs the state is unchanged and the
results coincide. -/
theorem consecutive_hash_neq_iff (s v : Nat) (hs : s < WSIZE) (hv : v < WSIZE) :
    ((TLCoreHasher.withState s).fastHash v).1 ≠
        (((TLCoreHasher.withState s).fastHash v).2.fastHash v).1 ↔
      ((TLCoreHasher.withState s).fastHash v).2.state ≠ s := by
  have hi1 : v ^^^ s < WSIZE := xor_lt_wsize hv hs
  have hs2 : (v ^^^ s) * MERSENNE_PRIME / WSIZE < WSIZE := mulC_div_lt hi1
  have hi2 : v ^^^ ((v ^^^ s) * MERSENNE_PRIME / WSIZE) < WSIZE := xor_lt_wsize hv hs2
  apply not_congr
  show (v ^^^ s) * MERSENNE_PRIME % WSIZE =
      (v ^^^ ((v ^^^ s) * MERSENNE_PRIME / WSIZE)) * MERSENNE_PRIME % WSIZE ↔
    (v ^^^ s) * MERSENNE_PRIME / WSIZE = s
  constructor
  · intro h
    have heq := mulC_mod_inj hi1 hi2 h
    exact (Nat.xor_right_inj.mp heq).symm
  · intro h
    rw [h]

/-- Claim C2 witness: at state 0 and value 5 the state does change, so the two
consecutive hashes differ. -/
theorem consecutive_hash_neq_iff_witness :
    ((TLCoreHasher.withState 0).fastHash 5).1 ≠
      (((TLCoreHasher.withState 0).fastHash 5).2.fastHash 5).1 :=
  (consecutive_hash_neq_iff 0 5 (by decide) (by decide)).mpr (by decide)

/-- Claim C3 counterexample: the default-constructed core hashers start at
state 0, not at the alternating-bit constant `DEFAULT_HASHER_STATE`. -/
theorem core_default_state_is_zero :
    TLCoreHasher.new.getState = 0 ∧ CoreHasher.new.getState = 0 ∧
    TLCoreHasher.new.getState ≠ DEFAULT_HASHER_STATE ∧
    CoreHasher.new.getState ≠ DEFAULT_HASHER_STATE := by decide

/-- Claim C3 (amended): only the digest adapter `CMHasher` default-constructs
with the alternating-bit state `S₀ = 0xAAAA_AAAA_AAAA_AAAA`; the core hashers
`TLCoreHasher` and `CoreHasher` default-construct with state 0. -/
theorem default_states_per_hasher :
    CMHasher.new.state = DEFAULT_HASHER_STATE ∧
    DEFAULT_HASHER_STATE = 0xAAAAAAAAAAAAAAAA ∧
    TLCoreHasher.new.getState = 0 ∧
    CoreHasher.new.getState = 0 :=
  ⟨rfl, rfl, rfl, rfl⟩

/-- Claim C4 counterexample: the stateless hash of 0 is 0, while the spec's
formula (xoring `S₀` into the value first) gives a nonzero result. -/
theorem stateless_no_default_xor :
    statelessFastHash 0 = 0 ∧ specStatelessHash 0 ≠ 0 ∧
    statelessFastHash 0 ≠ specStatelessHash 0 := by decide

/-- Claim C4 (amended): the stateless hash is low XOR high of the widening
multiply of the value itself by `C` — no state constant is xored in; being a
pure function, equal inputs always give equal outputs. -/
theorem stateless_hash_formula (v : Nat) :
    statelessFastHash v = (v * MERSENNE_PRIME % WSIZE) ^^^ (v * MERSENNE_PRIME / WSIZE) ∧
    StatelessHasher.hash v = statelessFastHash v :=
  ⟨rfl, rfl⟩

/-- Claim C5 counterexample: after `CMHasher::write`, the digest register is
not just the XOR of the chunk hashes — the pre-write hasher state is folded in
as the initial accumulator. -/
theorem write_register_includes_state :
    (CMHasher.new.write []).data ≠ (hashFold CMHasher.new.state 0 (writeWords [])).1 := by
  decide

/-- Claim C5 (amended): after `write(bytes)` the register equals the pre-write
hasher state XOR the fold of `hash` over every word (including the padded
tail) for `CMHasher`, and exactly the XOR of the stateless hashes for
`StatelessHasher`; in both cases the result replaces any prior register
contents, independent of the previous register value. -/
theorem write_register_formula (st d d2 : Nat) (bytes : List Nat) :
    ((CMHasher.mk st d).write bytes).data = st ^^^ (hashFold st 0 (writeWords bytes)).1 ∧
    (CMHasher.mk st d).write bytes = (CMHasher.mk st d2).write bytes ∧
    ((StatelessHasher.mk d).write bytes).data =
      (writeWords bytes).foldl (fun val next => val ^^^ StatelessHasher.hash next) 0 ∧
    (StatelessHasher.mk d).write bytes = (StatelessHasher.mk d2).write bytes := by
  refine ⟨?_, rfl, rfl, rfl⟩
  have h := hashFold_acc (writeWords bytes) st st
  show (hashFold st st (writeWords bytes)).1 = _
  rw [h]

/-- Claim C6 counterexample: on an 8-byte buffer (an exact multiple of the
word width) `write` still hashes a zero-padded tail word — it feeds two words
to the hasher where the spec's chunking would feed one, and the resulting
register differs. -/
theorem exact_multiple_still_pads :
    writeWords (List.replicate 8 0) = [0, 0] ∧
    specWriteWords (List.replicate 8 0) = [0] ∧
    (CMHasher.new.write (List.replicate 8 0)).data ≠
      (hashFold CMHasher.new.state CMHasher.new.state
        (specWriteWords (List.replicate 8 0))).1 := by decide

/-- Claim C6 (amended): `write` partitions the buffer into `length / 8` full
chunks and always hashes one additional zero-padded tail word, even when the
length is an exact multiple of the word width; a buffer shorter than one word
produces exactly one zero-padded word. -/
theorem write_chunking (bytes : List Nat) :
    (fullChunks bytes).length = bytes.length / 8 ∧
    (writeWords bytes).length = bytes.length / 8 + 1 ∧
    (bytes.length < 8 → writeWords bytes = [padWord bytes]) := by
  refine ⟨fullChunks_length bytes, ?_, ?_⟩
  · simp [writeWords, fullChunks_length bytes]
  · intro h
    simp [writeWords, fullChunks_short bytes h, remBytes_short bytes h]

/-- Claim C6 witness: a 3-byte buffer is shorter than one word and produces
exactly its single zero-padded word. -/
theorem write_chunking_witness :
    ([1, 2, 3] : List Nat).length < 8 ∧ writeWords [1, 2, 3] = [padWord [1, 2, 3]] :=
  ⟨by decide, (write_chunking [1, 2, 3]).2.2 (by decide)⟩

/-- Claim C7: `finish` returns the current digest register and resets it to 0,
so a second `finish` with no intervening `write` returns 0 — for both
`CMHasher` and `StatelessHasher`. -/
theorem finish_consumes_register (st d : Nat) :
    (CMHasher.mk st d).finish = (d, ⟨st, 0⟩) ∧
    ((CMHasher.mk st d).finish.2.finish).1 = 0 ∧
    (StatelessHasher.mk d).finish = (d, ⟨0⟩) ∧
    ((StatelessHasher.mk d).finish.2.finish).1 = 0 :=
  ⟨rfl, rfl, rfl, rfl⟩

/-- Claim C8: the 64-bit mixing constant is the literal `(2 << 61) - 1`, i.e.
`2 ^ 62 - 1`, it is odd, it is not the Mersenne prime `2 ^ 61 - 1`, and that
exact value is the multiplier in every hashing operation. -/
theorem mixing_constant_fixed (s v d : Nat) :
    MERSENNE_PRIME = (2 <<< 61) - 1 ∧
    MERSENNE_PRIME = 2 ^ 62 - 1 ∧
    MERSENNE_PRIME % 2 = 1 ∧
    MERSENNE_PRIME ≠ 2 ^ 61 - 1 ∧
    TLCoreHasher.fastHash ⟨s⟩ v =
      ((wideningMul (v ^^^ s) MERSENNE_PRIME).1, ⟨(wideningMul (v ^^^ s) MERSENNE_PRIME).2⟩) ∧
    CoreHasher.fastHash ⟨s⟩ v =
      ((wideningMul (v ^^^ s) MERSENNE_PRIME).1, ⟨(wideningMul (v ^^^ s) MERSENNE_PRIME).2⟩) ∧
    CMHasher.hash ⟨s, d⟩ v =
      ((wideningMul (v ^^^ s) MERSENNE_PRIME).1, ⟨(wideningMul (v ^^^ s) MERSENNE_PRIME).2, d⟩) ∧
    statelessFastHash v = (wideningMul v MERSENNE_PRIME).1 ^^^ (wideningMul v MERSENNE_PRIME).2 ∧
    StatelessHasher.hash v = (wideningMul v MERSENNE_PRIME).1 ^^^ (wideningMul v MERSENNE_PRIME).2 :=
  ⟨rfl, by decide, by decide, by decide, rfl, rfl, rfl, rfl, rfl⟩

/-- Claim C9: every modelled operation is total and keeps all observable values
inside the machine-word range, for every word input and every byte buffer
(including the empty one). -/
theorem operations_total (s v d : Nat) (bytes : List Nat)
    (hs : s < WSIZE) (hv : v < WSIZE) (hd : d < WSIZE) (hb : ∀ b ∈ bytes, b < 256) :
    ((TLCoreHasher.withState s).fastHash v).1 < WSIZE ∧
    ((TLCoreHasher.withState s).fastHash v).2.state < WSIZE ∧
    ((CoreHasher.withState s).fastHash v).1 < WSIZE ∧
    statelessFastHash v < WSIZE ∧
    ((CMHasher.mk s d).write bytes).data < WSIZE ∧
    ((CMHasher.mk s d).write bytes).state < WSIZE ∧
    ((CMHasher.mk s d).writeU64 v).data < WSIZE ∧
    ((CMHasher.mk s d).writeU64 v).state < WSIZE ∧
    (CMHasher.mk s d).finish.1 < WSIZE ∧
    ((StatelessHasher.mk d).write bytes).data < WSIZE ∧
    ((StatelessHasher.mk d).finish).1 < WSIZE ∧
    (TLCoreHasher.withState s).getState = s := by
  have hwlt := writeWords_lt bytes hb
  have hfold := hashFold_lt (writeWords bytes) s s hs hs hwlt
  have hi : v ^^^ s < WSIZE := xor_lt_wsize hv hs
  exact ⟨Nat.mod_lt _ wsize_pos, mulC_div_lt hi, Nat.mod_lt _ wsize_pos,
    statelessHash_lt hv, hfold.1, hfold.2, Nat.mod_lt _ wsize_pos, mulC_div_lt hi,
    hd, xorFoldl_lt _ 0 wsize_pos hwlt, hd, rfl⟩

/-- Claim C9 witness: the totality theorem instantiated at concrete inputs. -/
theorem operations_total_witness :
    (1 : Nat) < WSIZE ∧ (2 : Nat) < WSIZE ∧ (3 : Nat) < WSIZE ∧
    (∀ b ∈ ([10, 20] : List Nat), b < 256) ∧
    ((TLCoreHasher.withState 1).fastHash 2).1 < WSIZE :=
  ⟨by decide, by decide, by decide, by decide,
    (operations_total 1 2 3 [10, 20] (by decide) (by decide) (by decide) (by decide)).1⟩

/-- Claim C10: `write` on the empty byte slice is not a no-op — it has zero
full chunks but still hashes the single all-zero padded word, overwriting the
register with that hash combined with the fold's initial accumulator and
applying one mixing step to the internal state. -/
theorem write_empty_not_noop (s d : Nat) :
    fullChunks [] = [] ∧
    writeWords [] = [0] ∧
    (CMHasher.mk s d).write [] =
      ⟨((CMHasher.mk s d).hash 0).2.state, s ^^^ ((CMHasher.mk s d).hash 0).1⟩ ∧
    (StatelessHasher.mk d).write [] = ⟨0 ^^^ StatelessHasher.hash 0⟩ :=
  ⟨rfl, rfl, rfl, rfl⟩
